import Mathlib

/-!
# Verification of the TiKV snapshot-lifecycle subsystem specification

Shallow embedding of the snapshot lifecycle subsystem of TiKV (snapshot
generation, registry, sending, receiving, applying, garbage collection)
and of the cloud error module, together with proofs of the spec's claims.

The registry / generator / sender / receiver / applier implementation is
not part of the provided sources (only its failpoint tests and trait
declarations are), so those components are modelled from the spec's
component contracts; definitions carrying a `Modelled from the spec:`
doc comment are of that kind.  The cloud error module
(`components/cloud/src/error.rs`) and the file-name handling exercised by
`tests/failpoints/cases/test_snap.rs` are embedded directly from source.
-/

namespace TikvSnap

/-! ## Cloud error module (`components/cloud/src/error.rs`) -/

/-- Embeds `OtherError` from `components/cloud/src/error.rs`: a boxed error
together with an explicit `retryable` flag.  The boxed payload
`Box<dyn error::Error + Sync + Send>` is represented by a `String`. -/
structure OtherError where
  retryable : Bool
  err : String
deriving DecidableEq, Repr

/-- `OtherError::from_box`: wraps a boxed error with `retryable: false`. -/
def OtherError.from_box (err : String) : OtherError :=
  { retryable := false, err := err }

/-- Embeds `enum KmsError` from `components/cloud/src/error.rs`. -/
inductive KmsError where
  | WrongMasterKey (e : String)
  | EmptyKey (s : String)
  | Other (e : OtherError)
deriving DecidableEq, Repr

/-- Embeds `enum Error` from `components/cloud/src/error.rs`; boxed error
payloads are represented by `String`. -/
inductive CloudError where
  | Other (e : String)
  | Io (e : String)
  | Proto (e : String)
  | ApiTimeout (e : String)
  | ApiInternal (e : String)
  | ApiNotFound (e : String)
  | ApiAuthentication (e : String)
  | KmsError (e : KmsError)
deriving DecidableEq, Repr

/-- `impl RetryError for KmsError { fn is_retryable }`. -/
def KmsError.is_retryable : KmsError → Bool
  | .WrongMasterKey _ => false
  | .EmptyKey _ => false
  | .Other e => e.retryable

/-- `impl RetryError for Error { fn is_retryable }`. -/
def CloudError.is_retryable : CloudError → Bool
  | .Io _ => true
  | .Proto _ => true
  | .Other _ => true
  | .ApiTimeout _ => true
  | .ApiInternal _ => true
  | .ApiNotFound _ => false
  | .ApiAuthentication _ => false
  | .KmsError e => e.is_retryable

end TikvSnap

namespace TikvSnap

/-- C10: For every cloud `Error` value, `is_retryable()` returns `false`
exactly when the value is `ApiNotFound`, `ApiAuthentication`,
`KmsError::WrongMasterKey`, `KmsError::EmptyKey`, or a `KmsError::Other`
whose inner `OtherError` was built with `OtherError::from_box`; and every
`Io`, `Proto`, `Other`, `ApiTimeout`, and `ApiInternal` error is
retryable. -/
theorem c10_cloud_error_retryable_characterization (e : CloudError) :
    (e.is_retryable = false ↔
      ((∃ b, e = .ApiNotFound b) ∨ (∃ b, e = .ApiAuthentication b) ∨
       (∃ b, e = .KmsError (.WrongMasterKey b)) ∨
       (∃ s, e = .KmsError (.EmptyKey s)) ∨
       (∃ o, e = .KmsError (.Other o) ∧ ∃ b, o = OtherError.from_box b))) ∧
    ((∀ b, (CloudError.Io b).is_retryable = true) ∧
     (∀ b, (CloudError.Proto b).is_retryable = true) ∧
     (∀ b, (CloudError.Other b).is_retryable = true) ∧
     (∀ b, (CloudError.ApiTimeout b).is_retryable = true) ∧
     (∀ b, (CloudError.ApiInternal b).is_retryable = true)) := by
  constructor
  · constructor
    · intro h
      cases e with
      | Other b => simp [CloudError.is_retryable] at h
      | Io b => simp [CloudError.is_retryable] at h
      | Proto b => simp [CloudError.is_retryable] at h
      | ApiTimeout b => simp [CloudError.is_retryable] at h
      | ApiInternal b => simp [CloudError.is_retryable] at h
      | ApiNotFound b => exact Or.inl ⟨b, rfl⟩
      | ApiAuthentication b => exact Or.inr (Or.inl ⟨b, rfl⟩)
      | KmsError k =>
        cases k with
        | WrongMasterKey b => exact Or.inr (Or.inr (Or.inl ⟨b, rfl⟩))
        | EmptyKey s => exact Or.inr (Or.inr (Or.inr (Or.inl ⟨s, rfl⟩)))
        | Other o =>
          refine Or.inr (Or.inr (Or.inr (Or.inr ⟨o, rfl, o.err, ?_⟩)))
          have hret : o.retryable = false := by
            simpa [CloudError.is_retryable, KmsError.is_retryable] using h
          cases o with
          | mk r err => simp_all [OtherError.from_box]
    · rintro (⟨b, rfl⟩ | ⟨b, rfl⟩ | ⟨b, rfl⟩ | ⟨s, rfl⟩ | ⟨o, rfl, b, rfl⟩) <;>
        simp [CloudError.is_retryable, KmsError.is_retryable, OtherError.from_box]
  · refine ⟨fun b => rfl, fun b => rfl, fun b => rfl, fun b => rfl, fun b => rfl⟩

end TikvSnap

namespace TikvSnap

/-! ## Snapshot key, lifecycle state, and registry

Modelled from the spec: the Registry / Snapshot Manager implementation is
not among the provided sources (only its failpoint tests are), so the data
model of §3 and the registry contract of §4.2 are embedded from the spec's
words. -/

/-- `SnapKey` — `(region_id, term, index)`, identity of one snapshot. -/
structure SnapKey where
  region_id : Nat
  term : Nat
  index : Nat
deriving DecidableEq, Repr

/-- `SnapshotState` — the lifecycle tag of §3, both halves of the machine. -/
inductive SnapState where
  | Generating
  | Generated
  | Sending
  | Sent
  | SendFailed
  | Receiving
  | Received
  | Applying
  | Applied
  | ApplyFailed
deriving DecidableEq, Repr

/-- Modelled from the spec: terminal states are `Sent`, `Applied`, or a
failure state that has been cleaned up. -/
def SnapState.isTerminal : SnapState → Bool
  | .Sent => true
  | .Applied => true
  | .SendFailed => true
  | .ApplyFailed => true
  | _ => false

/-- Registry entry: `(state, reference count, grace-clock start)`.  The
reference count is an integer so that "never goes negative" is a real
statement about the model. -/
structure RegEntry where
  state : SnapState
  refCount : Int
  zeroSince : Option Nat
deriving DecidableEq, Repr

/-- Modelled from the spec: process-wide registry state — the SnapKey-keyed
entry map plus the set of keys whose on-disk artifact files exist. -/
structure Registry where
  grace : Nat
  entries : List (SnapKey × RegEntry)
  files : List SnapKey
deriving DecidableEq, Repr

/-- Association-list lookup used by every registry operation. -/
def findEntry : List (SnapKey × RegEntry) → SnapKey → Option RegEntry
  | [], _ => none
  | (k', e) :: rest, k => if k' = k then some e else findEntry rest k

/-- Association-list update (replaces the first binding of the key). -/
def setEntry : List (SnapKey × RegEntry) → SnapKey → RegEntry → List (SnapKey × RegEntry)
  | [], k, e => [(k, e)]
  | (k', e') :: rest, k, e =>
    if k' = k then (k, e) :: rest else (k', e') :: setEntry rest k e

/-- Grace-period check: the count has been zero since `t0` and
`t0 + grace ≤ now`. -/
def graceElapsed (grace now : Nat) : Option Nat → Bool
  | some t0 => decide (t0 + grace ≤ now)
  | none => false

/-- Modelled from the spec: an entry is reclaimable only when the count is
zero, the grace period has elapsed, and the state is terminal. -/
def reclaimable (grace now : Nat) (e : RegEntry) : Bool :=
  decide (e.refCount = 0) && graceElapsed grace now e.zeroSince && e.state.isTerminal

/-- `register(key, initial_state)`: fails with `AlreadyExists` (state kept
unchanged) if a non-terminal entry exists; otherwise creates the entry with
reference count 1 and its on-disk files. -/
def Registry.register (r : Registry) (k : SnapKey) (s0 : SnapState) : Registry :=
  match findEntry r.entries k with
  | some e =>
    if e.state.isTerminal then
      { r with entries := setEntry r.entries k ⟨s0, 1, none⟩,
               files := if k ∈ r.files then r.files else k :: r.files }
    else r
  | none =>
    { r with entries := setEntry r.entries k ⟨s0, 1, none⟩,
             files := if k ∈ r.files then r.files else k :: r.files }

/-- `transition(key, from, to)`: fails with `InvalidTransition` (state kept
unchanged) if the current state differs from `from`. -/
def Registry.transition (r : Registry) (k : SnapKey) (src dst : SnapState) : Registry :=
  match findEntry r.entries k with
  | some e =>
    if e.state = src then
      { r with entries := setEntry r.entries k { e with state := dst } }
    else r
  | none => r

/-- `acquire(key)`: reference-count increment; clears the grace clock. -/
def Registry.acquire (r : Registry) (k : SnapKey) : Registry :=
  match findEntry r.entries k with
  | some e =>
    { r with entries :=
        setEntry r.entries k { e with refCount := e.refCount + 1, zeroSince := none } }
  | none => r

/-- `release(key)`: reference-count decrement, guarded so a stale release
with no matching acquire is refused; dropping the count to zero starts the
grace-period clock. -/
def Registry.release (r : Registry) (k : SnapKey) (now : Nat) : Registry :=
  match findEntry r.entries k with
  | some e =>
    if 0 < e.refCount then
      let c := e.refCount - 1
      let e2 : RegEntry := { e with refCount := c, zeroSince := if c = 0 then some now else e.zeroSince }
      { r with entries := setEntry r.entries k e2 }
    else r
  | none => r

/-- `sweep()`: deletes on-disk files for reclaimable entries, then removes
their registry entries; acts only on entries it can look up. -/
def Registry.sweep (r : Registry) (now : Nat) : Registry :=
  { r with
    entries := r.entries.filter (fun kv => !(reclaimable r.grace now kv.2)),
    files := r.files.filter (fun k =>
      match findEntry r.entries k with
      | some e => !(reclaimable r.grace now e)
      | none => true) }

/-- The registry operations visible to the other components. -/
inductive RegOp where
  | register (k : SnapKey) (s0 : SnapState)
  | transition (k : SnapKey) (src dst : SnapState)
  | acquire (k : SnapKey)
  | release (k : SnapKey) (now : Nat)
  | sweep (now : Nat)
deriving DecidableEq, Repr

def Registry.step (r : Registry) : RegOp → Registry
  | .register k s0 => r.register k s0
  | .transition k src dst => r.transition k src dst
  | .acquire k => r.acquire k
  | .release k now => r.release k now
  | .sweep now => r.sweep now

def Registry.init (grace : Nat) : Registry := ⟨grace, [], []⟩

def Registry.run (r : Registry) (ops : List RegOp) : Registry :=
  ops.foldl Registry.step r

theorem mem_setEntry {l : List (SnapKey × RegEntry)} {k : SnapKey} {e : RegEntry}
    {kv : SnapKey × RegEntry} (h : kv ∈ setEntry l k e) : kv = (k, e) ∨ kv ∈ l := by
  induction l with
  | nil => simpa [setEntry] using h
  | cons hd tl ih =>
    rcases hd with ⟨k', e'⟩
    by_cases hk : k' = k
    · rw [setEntry, if_pos hk] at h
      rcases List.mem_cons.mp h with h1 | h1
      · exact Or.inl h1
      · exact Or.inr (List.mem_cons_of_mem _ h1)
    · rw [setEntry, if_neg hk] at h
      rcases List.mem_cons.mp h with h1 | h1
      · subst h1; exact Or.inr (List.mem_cons_self _ _)
      · rcases ih h1 with h2 | h2
        · exact Or.inl h2
        · exact Or.inr (List.mem_cons_of_mem _ h2)

theorem findEntry_mem {l : List (SnapKey × RegEntry)} {k : SnapKey} {e : RegEntry}
    (h : findEntry l k = some e) : (k, e) ∈ l := by
  induction l with
  | nil => simp [findEntry] at h
  | cons hd tl ih =>
    rcases hd with ⟨k', e'⟩
    by_cases hk : k' = k
    · subst hk
      rw [findEntry, if_pos rfl] at h
      obtain rfl : e' = e := by injection h
      exact List.mem_cons_self _ _
    · rw [findEntry, if_neg hk] at h
      exact List.mem_cons_of_mem _ (ih h)

/-- Per-entry nonnegativity of reference counts. -/
def refsNonneg (r : Registry) : Prop :=
  ∀ kv : SnapKey × RegEntry, kv ∈ r.entries → 0 ≤ kv.2.refCount

theorem refsNonneg_step {r : Registry} (hr : refsNonneg r) (op : RegOp) :
    refsNonneg (r.step op) := by
  intro kv hkv
  cases op with
  | register k s0 =>
    simp only [Registry.step, Registry.register] at hkv
    rcases hfind : findEntry r.entries k with _ | e <;> rw [hfind] at hkv
    · rcases mem_setEntry hkv with h1 | h1
      · subst h1; norm_num
      · exact hr _ h1
    · by_cases ht : e.state.isTerminal
      · simp only [ht, if_pos] at hkv
        rcases mem_setEntry hkv with h1 | h1
        · subst h1; norm_num
        · exact hr _ h1
      · simp only [ht] at hkv
        exact hr _ hkv
  | transition k src dst =>
    simp only [Registry.step, Registry.transition] at hkv
    rcases hfind : findEntry r.entries k with _ | e <;> rw [hfind] at hkv
    · exact hr _ hkv
    · by_cases hs : e.state = src
      · simp only [hs, if_pos] at hkv
        rcases mem_setEntry hkv with h1 | h1
        · subst h1
          have h0 : (0 : Int) ≤ e.refCount := hr _ (findEntry_mem hfind)
          exact h0
        · exact hr _ h1
      · simp only [hs] at hkv
        exact hr _ hkv
  | acquire k =>
    simp only [Registry.step, Registry.acquire] at hkv
    rcases hfind : findEntry r.entries k with _ | e <;> rw [hfind] at hkv
    · exact hr _ hkv
    · rcases mem_setEntry hkv with h1 | h1
      · subst h1
        have h0 : (0 : Int) ≤ e.refCount := hr _ (findEntry_mem hfind)
        show (0 : Int) ≤ e.refCount + 1
        omega
      · exact hr _ h1
  | release k now =>
    simp only [Registry.step, Registry.release] at hkv
    rcases hfind : findEntry r.entries k with _ | e <;> rw [hfind] at hkv
    · exact hr _ hkv
    · by_cases hpos : 0 < e.refCount
      · simp only [hpos, if_pos] at hkv
        rcases mem_setEntry hkv with h1 | h1
        · subst h1
          show (0 : Int) ≤ e.refCount - 1
          omega
        · exact hr _ h1
      · simp only [hpos] at hkv
        exact hr _ hkv
  | sweep now =>
    simp only [Registry.step, Registry.sweep] at hkv
    exact hr _ (List.mem_of_mem_filter hkv)

theorem refsNonneg_run (grace : Nat) (ops : List RegOp) :
    refsNonneg (Registry.run (Registry.init grace) ops) := by
  suffices h : ∀ (r : Registry), refsNonneg r → refsNonneg (Registry.run r ops) by
    refine h _ ?_
    intro kv hkv
    simp [Registry.init] at hkv
  induction ops with
  | nil => exact fun r hr => hr
  | cons op rest ih =>
    intro r hr
    exact ih _ (refsNonneg_step hr op)

end TikvSnap

namespace TikvSnap

/-- C2: For every SnapKey and at every point in an execution, the Registry
entry's reference count is never negative, the Garbage Collector's sweep
never deletes the on-disk files of an entry whose reference count is
greater than zero, and an entry is reclaimed only when its count is zero,
the grace period has elapsed, and its state is terminal. -/
theorem c2_refcount_nonneg_and_gc_safety (grace : Nat) (ops : List RegOp) (now : Nat)
    (k : SnapKey) (e : RegEntry) :
    ((k, e) ∈ (Registry.run (Registry.init grace) ops).entries → 0 ≤ e.refCount) ∧
    (∀ r : Registry, findEntry r.entries k = some e → 0 < e.refCount →
      (k ∈ (r.sweep now).files ↔ k ∈ r.files)) ∧
    (∀ r : Registry, (k, e) ∈ r.entries → (k, e) ∉ (r.sweep now).entries →
      e.refCount = 0 ∧ graceElapsed r.grace now e.zeroSince = true ∧
        e.state.isTerminal = true) := by
  refine ⟨fun hmem => refsNonneg_run grace ops (k, e) hmem, ?_, ?_⟩
  · intro r hfind hpos
    simp only [Registry.sweep, List.mem_filter]
    constructor
    · exact fun h => h.1
    · intro h
      refine ⟨h, ?_⟩
      rw [hfind]
      have hne : e.refCount ≠ 0 := by omega
      simp [reclaimable, hne]
  · intro r hmem hnotmem
    have hrecl : reclaimable r.grace now e = true := by
      by_contra hfalse
      apply hnotmem
      simp only [Registry.sweep, List.mem_filter]
      refine ⟨hmem, ?_⟩
      rw [Bool.not_eq_true] at hfalse
      simp [hfalse]
    simp only [reclaimable, Bool.and_eq_true, decide_eq_true_eq] at hrecl
    exact ⟨hrecl.1.1, hrecl.1.2, hrecl.2⟩

/-- Witness for C2 at a concrete registry: the entry for key `(2, 6, 1)`
with state `Sent`, count 0, grace clock started at 5, swept at time 100
under grace 10, satisfies the reclaim conditions. -/
theorem c2_refcount_nonneg_and_gc_safety_witness :
    (⟨SnapState.Sent, 0, some 5⟩ : RegEntry).refCount = 0 ∧
    graceElapsed 10 100 (some 5) = true ∧
    SnapState.Sent.isTerminal = true :=
  (c2_refcount_nonneg_and_gc_safety 10 [] 100 ⟨2, 6, 1⟩ ⟨SnapState.Sent, 0, some 5⟩).2.2
    ⟨10, [(⟨2, 6, 1⟩, ⟨SnapState.Sent, 0, some 5⟩)], [⟨2, 6, 1⟩]⟩ (by decide) (by decide)

end TikvSnap

namespace TikvSnap

/-! ## Applier: two-phase ingestion and crash recovery

Modelled from the spec (§4.5): the Applier implementation is not among the
provided sources; its two-phase contract and recovery rule are embedded
from the spec's words, with storage and the log engine as explicit state. -/

/-- One column-family range of snapshot data: range name plus content. -/
structure RangeData where
  name : String
  bytes : List Nat
deriving DecidableEq, Repr

/-- Read one named range out of the storage engine. -/
def lookupRange : List RangeData → String → Option (List Nat)
  | [], _ => none
  | r :: rest, n => if r.name = n then some r.bytes else lookupRange rest n

/-- Ingest one range as a whole-range replacement (not an incremental
merge). -/
def ingestRange : List RangeData → RangeData → List RangeData
  | [], r => [r]
  | r' :: rest, r => if r'.name = r.name then r :: rest else r' :: ingestRange rest r

/-- `ingest_ranges`: bulk-load a set of ranges into the storage engine. -/
def ingest (st : List RangeData) (ranges : List RangeData) : List RangeData :=
  ranges.foldl ingestRange st

/-- A received, validated snapshot: its key and its range contents. -/
structure Snapshot where
  key : SnapKey
  ranges : List RangeData
deriving DecidableEq, Repr

/-- Target-node state visible to the Applier: the storage engine, the log
engine's recorded applied index, and the retained log entries (by index). -/
structure World where
  storage : List RangeData
  appliedIndex : Nat
  raftLog : List Nat
deriving DecidableEq, Repr

/-- Phase (1): bulk-load the snapshot's ranges into the storage engine. -/
def phase1 (w : World) (s : Snapshot) : World :=
  { w with storage := ingest w.storage s.ranges }

/-- Phase (2): record in the log engine that the applied index now equals
the snapshot's index, and truncate the now-obsolete log entries below it. -/
def phase2 (w : World) (s : Snapshot) : World :=
  { w with appliedIndex := s.key.index,
           raftLog := w.raftLog.filter (fun i => decide (s.key.index < i)) }

/-- A full apply: phase (1) followed by phase (2). -/
def applyFull (w : World) (s : Snapshot) : World := phase2 (phase1 w s) s

/-- Does the storage engine reflect the snapshot (every range present with
exactly the snapshot's content)? -/
def storageReflects (st : List RangeData) (s : Snapshot) : Bool :=
  s.ranges.all (fun r => decide (lookupRange st r.name = some r.bytes))

/-- Modelled from the spec: restart-time recovery.  If the log engine
already records the snapshot's index, nothing is left to do; if storage
reflects the snapshot but the log engine does not yet record it, redo
phase (2); otherwise redo the whole apply. -/
def recover (w : World) (s : Snapshot) : World :=
  if w.appliedIndex = s.key.index then w
  else if storageReflects w.storage s then phase2 w s
  else applyFull w s

theorem lookupRange_ingestRange_self (st : List RangeData) (r : RangeData) :
    lookupRange (ingestRange st r) r.name = some r.bytes := by
  induction st with
  | nil => simp [ingestRange, lookupRange]
  | cons r' rest ih =>
    rw [ingestRange]
    by_cases h : r'.name = r.name
    · rw [if_pos h, lookupRange, if_pos rfl]
    · rw [if_neg h, lookupRange, if_neg h]
      exact ih

theorem lookupRange_ingestRange_other (st : List RangeData) (r : RangeData) (n : String)
    (h : r.name ≠ n) : lookupRange (ingestRange st r) n = lookupRange st n := by
  induction st with
  | nil => simp [ingestRange, lookupRange, h]
  | cons r' rest ih =>
    rw [ingestRange]
    by_cases h' : r'.name = r.name
    · rw [if_pos h', lookupRange, if_neg h, lookupRange, if_neg (h' ▸ h)]
    · rw [if_neg h', lookupRange, lookupRange]
      by_cases h'' : r'.name = n
      · rw [if_pos h'', if_pos h'']
      · rw [if_neg h'', if_neg h'']
        exact ih

theorem lookupRange_ingest_not_mem (ranges : List RangeData) (st : List RangeData) (n : String)
    (h : n ∉ ranges.map RangeData.name) :
    lookupRange (ingest st ranges) n = lookupRange st n := by
  induction ranges generalizing st with
  | nil => rfl
  | cons r rest ih =>
    simp only [List.map_cons, List.mem_cons, not_or] at h
    show lookupRange (ingest (ingestRange st r) rest) n = lookupRange st n
    rw [ih _ h.2, lookupRange_ingestRange_other st r n (fun hr => h.1 hr.symm)]

theorem lookupRange_ingest_mem (ranges : List RangeData) (st : List RangeData)
    (hnodup : (ranges.map RangeData.name).Nodup) (r : RangeData) (hr : r ∈ ranges) :
    lookupRange (ingest st ranges) r.name = some r.bytes := by
  induction ranges generalizing st with
  | nil => cases hr
  | cons r0 rest ih =>
    simp only [List.map_cons, List.nodup_cons] at hnodup
    rcases List.mem_cons.mp hr with h1 | h1
    · subst h1
      show lookupRange (ingest (ingestRange st r) rest) r.name = some r.bytes
      rw [lookupRange_ingest_not_mem rest _ _ hnodup.1]
      exact lookupRange_ingestRange_self st r
    · exact ih (ingestRange st r0) hnodup.2 h1

theorem storageReflects_ingest (st : List RangeData) (s : Snapshot)
    (hnodup : (s.ranges.map RangeData.name).Nodup) :
    storageReflects (ingest st s.ranges) s = true := by
  rw [storageReflects, List.all_eq_true]
  intro r hr
  simp only [decide_eq_true_eq]
  exact lookupRange_ingest_mem s.ranges st hnodup r hr

/-- C1: if the process is killed after phase (1) but before phase (2), then
after restart the Applier redoes the missing work: the region reaches the
applied state with the snapshot's data present, the log engine recording
the snapshot's index, and obsolete log entries truncated — exactly the
state of an uninterrupted apply. -/
theorem c1_crash_between_phases_recovery (w : World) (s : Snapshot)
    (hnodup : (s.ranges.map RangeData.name).Nodup)
    (hnew : w.appliedIndex ≠ s.key.index) :
    recover (phase1 w s) s = applyFull w s ∧
    (recover (phase1 w s) s).appliedIndex = s.key.index ∧
    storageReflects (recover (phase1 w s) s).storage s = true ∧
    (∀ i ∈ (recover (phase1 w s) s).raftLog, s.key.index < i) := by
  have happlied : (phase1 w s).appliedIndex = w.appliedIndex := rfl
  have hreflect : storageReflects (phase1 w s).storage s = true :=
    storageReflects_ingest w.storage s hnodup
  have hrec : recover (phase1 w s) s = applyFull w s := by
    rw [recover, if_neg (happlied ▸ hnew), if_pos hreflect]
    rfl
  refine ⟨hrec, ?_, ?_, ?_⟩
  · rw [hrec]; rfl
  · rw [hrec]
    exact storageReflects_ingest w.storage s hnodup
  · rw [hrec]
    intro i hi
    have := List.mem_filter.mp hi
    simpa using this.2

/-- Witness for C1: a world at applied index 3 with stale log entries
`[1, 2, 3, 4, 9]`, crashed after phase (1) of applying a snapshot at index
7 carrying ranges `default` and `write`, recovers to the applied state. -/
theorem c1_crash_between_phases_recovery_witness :
    (recover (phase1 ⟨[⟨"default", [1]⟩], 3, [1, 2, 3, 4, 9]⟩
        ⟨⟨2, 6, 7⟩, [⟨"default", [5, 5]⟩, ⟨"write", [6]⟩]⟩)
        ⟨⟨2, 6, 7⟩, [⟨"default", [5, 5]⟩, ⟨"write", [6]⟩]⟩ =
      applyFull ⟨[⟨"default", [1]⟩], 3, [1, 2, 3, 4, 9]⟩
        ⟨⟨2, 6, 7⟩, [⟨"default", [5, 5]⟩, ⟨"write", [6]⟩]⟩) ∧
    ((recover (phase1 ⟨[⟨"default", [1]⟩], 3, [1, 2, 3, 4, 9]⟩
        ⟨⟨2, 6, 7⟩, [⟨"default", [5, 5]⟩, ⟨"write", [6]⟩]⟩)
        ⟨⟨2, 6, 7⟩, [⟨"default", [5, 5]⟩, ⟨"write", [6]⟩]⟩).appliedIndex = 7) ∧
    (storageReflects (recover (phase1 ⟨[⟨"default", [1]⟩], 3, [1, 2, 3, 4, 9]⟩
        ⟨⟨2, 6, 7⟩, [⟨"default", [5, 5]⟩, ⟨"write", [6]⟩]⟩)
        ⟨⟨2, 6, 7⟩, [⟨"default", [5, 5]⟩, ⟨"write", [6]⟩]⟩).storage
      ⟨⟨2, 6, 7⟩, [⟨"default", [5, 5]⟩, ⟨"write", [6]⟩]⟩ = true) ∧
    (∀ i ∈ (recover (phase1 ⟨[⟨"default", [1]⟩], 3, [1, 2, 3, 4, 9]⟩
        ⟨⟨2, 6, 7⟩, [⟨"default", [5, 5]⟩, ⟨"write", [6]⟩]⟩)
        ⟨⟨2, 6, 7⟩, [⟨"default", [5, 5]⟩, ⟨"write", [6]⟩]⟩).raftLog, 7 < i) :=
  c1_crash_between_phases_recovery ⟨[⟨"default", [1]⟩], 3, [1, 2, 3, 4, 9]⟩
    ⟨⟨2, 6, 7⟩, [⟨"default", [5, 5]⟩, ⟨"write", [6]⟩]⟩ (by decide) (by decide)

end TikvSnap

namespace TikvSnap

/-! ## Generator: cancellation by log truncation

Modelled from the spec (§4.1, §3): the Generator implementation is not
among the provided sources.  Generation walks the ranges, writing one
output file per range, and observes the cancel condition between range
boundaries; a snapshot whose index is at or below the region's truncated
index is stale. -/

/-- Result of a generation task. -/
inductive GenOutcome where
  | Completed (index : Nat)
  | Canceled
deriving DecidableEq, Repr

/-- Modelled from the spec: one generation task.  `trunc step` is the
region's truncated log index as observed at boundary `step`; `files` is
the list of range files written so far.  At every boundary (including the
final one before registering the result) the task checks whether log
compaction has advanced the truncated index to or past `target`; if so it
aborts and its partial files are removed. -/
def genGo (target : Nat) (trunc : Nat → Nat) :
    Nat → List RangeData → List String → GenOutcome × List String
  | step, [], files =>
    if target ≤ trunc step then (.Canceled, []) else (.Completed target, files)
  | step, r :: rest, files =>
    if target ≤ trunc step then (.Canceled, [])
    else genGo target trunc (step + 1) rest (files ++ [r.name])

/-- `generate(region_id, index, cancel_token)`: run the task from the
first boundary with no files written yet. -/
def generate (target : Nat) (trunc : Nat → Nat) (ranges : List RangeData) :
    GenOutcome × List String :=
  genGo target trunc 0 ranges []

theorem genGo_canceled (target : Nat) (trunc : Nat → Nat) (rs : List RangeData)
    (step : Nat) (files : List String)
    (h : ∃ j, step ≤ j ∧ j ≤ step + rs.length ∧ target ≤ trunc j) :
    genGo target trunc step rs files = (.Canceled, []) := by
  induction rs generalizing step files with
  | nil =>
    obtain ⟨j, hj1, hj2, hj3⟩ := h
    have hj : j = step := by simpa using Nat.le_antisymm (by simpa using hj2) hj1
    subst hj
    rw [genGo, if_pos hj3]
  | cons r rest ih =>
    by_cases hc : target ≤ trunc step
    · rw [genGo, if_pos hc]
    · rw [genGo, if_neg hc]
      obtain ⟨j, hj1, hj2, hj3⟩ := h
      have hne : j ≠ step := fun hj => hc (hj ▸ hj3)
      refine ih (step + 1) (files ++ [r.name]) ⟨j, ?_, ?_, hj3⟩
      · omega
      · simp only [List.length_cons] at hj2
        omega

theorem genGo_completed (target : Nat) (trunc : Nat → Nat) (rs : List RangeData)
    (step : Nat) (files : List String) (i : Nat) (fs : List String)
    (h : genGo target trunc step rs files = (.Completed i, fs)) :
    i = target ∧ trunc (step + rs.length) < target := by
  induction rs generalizing step files with
  | nil =>
    by_cases hc : target ≤ trunc step
    · rw [genGo, if_pos hc] at h
      cases h
    · rw [genGo, if_neg hc] at h
      obtain ⟨h1, _⟩ := Prod.mk.injEq .. ▸ h
      refine ⟨by injection Prod.mk.injEq .. ▸ h |>.1 with h2; exact h2.symm ▸ rfl, ?_⟩
      simpa using Nat.lt_of_not_le hc
  | cons r rest ih =>
    by_cases hc : target ≤ trunc step
    · rw [genGo, if_pos hc] at h
      cases h
    · rw [genGo, if_neg hc] at h
      have := ih (step + 1) (files ++ [r.name]) h
      refine ⟨this.1, ?_⟩
      have heq : step + 1 + rest.length = step + (rest.length + 1) := by omega
      simpa [heq] using this.2

/-- C3: if the region's truncated log index advances past the task's
target index before generation completes, the task terminates `Canceled`
and leaves no orphaned files; and every generation that does complete
yields a snapshot whose index strictly exceeds the truncated index
observed at completion. -/
theorem c3_generation_canceled_by_truncation (target : Nat) (trunc : Nat → Nat)
    (ranges : List RangeData) :
    ((∃ j, j ≤ ranges.length ∧ target < trunc j) →
      generate target trunc ranges = (.Canceled, [])) ∧
    (∀ i fs, generate target trunc ranges = (.Completed i, fs) →
      i = target ∧ trunc ranges.length < i) := by
  constructor
  · intro ⟨j, hj1, hj2⟩
    exact genGo_canceled target trunc ranges 0 []
      ⟨j, Nat.zero_le j, by simpa using hj1, Nat.le_of_lt hj2⟩
  · intro i fs h
    have := genGo_completed target trunc ranges 0 [] i fs h
    exact ⟨this.1, by simpa [this.1] using this.2⟩

/-- Witness for C3: target index 5, truncated index observed as `4 + step`
(so it passes 5 at the second boundary), two ranges: the task cancels and
writes nothing. -/
theorem c3_generation_canceled_by_truncation_witness :
    generate 5 (fun s => 4 + s) [⟨"default", [1]⟩, ⟨"write", [2]⟩] =
      (GenOutcome.Canceled, []) :=
  (c3_generation_canceled_by_truncation 5 (fun s => 4 + s)
    [⟨"default", [1]⟩, ⟨"write", [2]⟩]).1 ⟨2, by decide, by decide⟩

end TikvSnap

namespace TikvSnap

/-! ## Checksum validation round trip

Modelled from the spec (§4.1, §4.3, §4.4): the Generator records a checksum
per range as it streams bytes, and the Receiver recomputes it as bytes
arrive; `SstReader::verify_checksum` in
`components/engine_traits/src/sst.rs` is only a trait declaration, so the
checksum itself is modelled as a position-weighted byte sum, which detects
every single-byte change. -/

/-- Streaming checksum accumulator: byte at weight `w` contributes `w * b`. -/
def checksumGo (w : Nat) : List Nat → Nat
  | [] => 0
  | b :: bs => w * b + checksumGo (w + 1) bs

/-- Per-range checksum recorded in the snapshot metadata. -/
def checksum (bs : List Nat) : Nat := checksumGo 1 bs

/-- Snapshot metadata: per-range name and declared checksum. -/
def metaOf (ranges : List RangeData) : List (String × Nat) :=
  ranges.map (fun r => (r.name, checksum r.bytes))

/-- Receiver-side validation: recompute each range's checksum and compare
with the metadata's declaration (completeness included: same ranges, in
order). -/
def validateFiles : List (String × Nat) → List RangeData → Bool
  | [], [] => true
  | (n, c) :: ms, f :: fs =>
    if n = f.name ∧ c = checksum f.bytes then validateFiles ms fs else false
  | _, _ => false

/-- Outcome of receiving a snapshot's bytes. -/
inductive RecvResult where
  | Ok (ranges : List RangeData)
  | Corrupted
deriving DecidableEq, Repr

/-- Modelled from the spec: receipt of a snapshot.  A checksum mismatch is
a `Corrupted` error and the whole artifact is deleted; the second
component is the set of artifact files kept on the target's disk. -/
def receiveFiles (meta : List (String × Nat)) (files : List RangeData) :
    RecvResult × List RangeData :=
  if validateFiles meta files then (.Ok files, files) else (.Corrupted, [])

/-- Flip one byte in transit: in range `r`, at offset `i`, to value `b`. -/
def setByte : List RangeData → Nat → Nat → Nat → List RangeData
  | [], _, _, _ => []
  | f :: fs, 0, i, b => { f with bytes := f.bytes.set i b } :: fs
  | f :: fs, r + 1, i, b => f :: setByte fs r i b

/-- Modelled from the spec: on a `Corrupted` receipt the Receiver signals
failure and the source regenerates and resends a fresh snapshot rather
than retrying the same bytes. -/
def resendAfterCorruption (data : List RangeData)
    (corruptOnce : List RangeData → List RangeData) : RecvResult :=
  match receiveFiles (metaOf data) (corruptOnce data) with
  | (.Ok s, _) => .Ok s
  | (.Corrupted, _) => (receiveFiles (metaOf data) data).1

theorem checksumGo_set_ne (b old : Nat) (hb : b ≠ old) (bs : List Nat) :
    ∀ (w i : Nat), 1 ≤ w → bs[i]? = some old →
      checksumGo w (bs.set i b) ≠ checksumGo w bs := by
  induction bs with
  | nil => intro w i _ hget; simp at hget
  | cons x t ih =>
    intro w i hw hget
    cases i with
    | zero =>
      obtain rfl : x = old := by simpa using hget
      simp only [List.set_cons_zero, checksumGo]
      intro heq
      have hmul : w * b = w * x := by omega
      exact hb (Nat.eq_of_mul_eq_mul_left (by omega) hmul)
    | succ i =>
      simp only [List.set_cons_succ, checksumGo]
      intro heq
      have htail : checksumGo (w + 1) (t.set i b) = checksumGo (w + 1) t := by omega
      exact ih (w + 1) i (by omega) (by simpa using hget) htail

theorem validateFiles_metaOf (data : List RangeData) :
    validateFiles (metaOf data) data = true := by
  induction data with
  | nil => rfl
  | cons f fs ih =>
    show validateFiles ((f.name, checksum f.bytes) :: metaOf fs) (f :: fs) = true
    rw [validateFiles, if_pos ⟨rfl, rfl⟩]
    exact ih

theorem validateFiles_setByte (data : List RangeData) :
    ∀ (r i b : Nat) (rd : RangeData), data[r]? = some rd →
      ∀ old, rd.bytes[i]? = some old → b ≠ old →
        validateFiles (metaOf data) (setByte data r i b) = false := by
  induction data with
  | nil => intro r i b rd hget; simp at hget
  | cons f fs ih =>
    intro r i b rd hget old hold hb
    cases r with
    | zero =>
      obtain rfl : f = rd := by simpa using hget
      show validateFiles ((f.name, checksum f.bytes) :: metaOf fs)
        ({ f with bytes := f.bytes.set i b } :: fs) = false
      rw [validateFiles]
      have hne : checksum f.bytes ≠ checksum (f.bytes.set i b) :=
        fun h => checksumGo_set_ne b old hb f.bytes 1 i (Nat.le_refl 1) hold h.symm
      rw [if_neg (fun hand => hne hand.2)]
    | succ r =>
      show validateFiles ((f.name, checksum f.bytes) :: metaOf fs)
        (f :: setByte fs r i b) = false
      rw [validateFiles, if_pos ⟨rfl, rfl⟩]
      exact ih r i b rd (by simpa using hget) old hold hb

/-- C4: checksum validation is a round trip — generating a snapshot and
receiving its bytes unmodified always validates; flipping any single byte
in any range file always yields a `Corrupted` error on receipt, after
which the artifact is deleted and the source regenerates and resends a
fresh snapshot, which is then delivered. -/
theorem c4_checksum_round_trip (data : List RangeData) (r i b : Nat) :
    (receiveFiles (metaOf data) data = (.Ok data, data)) ∧
    (∀ rd, data[r]? = some rd → ∀ old, rd.bytes[i]? = some old → b ≠ old →
      receiveFiles (metaOf data) (setByte data r i b) = (.Corrupted, [])) ∧
    (∀ rd, data[r]? = some rd → ∀ old, rd.bytes[i]? = some old → b ≠ old →
      resendAfterCorruption data (fun fs => setByte fs r i b) = .Ok data) := by
  have hok : receiveFiles (metaOf data) data = (.Ok data, data) := by
    rw [receiveFiles, if_pos (validateFiles_metaOf data)]
  have hbad : ∀ rd, data[r]? = some rd → ∀ old, rd.bytes[i]? = some old → b ≠ old →
      receiveFiles (metaOf data) (setByte data r i b) = (.Corrupted, []) := by
    intro rd hget old hold hb
    rw [receiveFiles, if_neg]
    rw [validateFiles_setByte data r i b rd hget old hold hb]
    simp
  refine ⟨hok, hbad, ?_⟩
  intro rd hget old hold hb
  rw [resendAfterCorruption, hbad rd hget old hold hb, hok]

/-- Witness for C4: the snapshot `[("default", [1, 2])]` with byte 1 of
the `default` range flipped to 9 is rejected as corrupted and its artifact
deleted. -/
theorem c4_checksum_round_trip_witness :
    receiveFiles (metaOf [⟨"default", [1, 2]⟩]) (setByte [⟨"default", [1, 2]⟩] 0 1 9) =
      (RecvResult.Corrupted, []) :=
  (c4_checksum_round_trip [⟨"default", [1, 2]⟩] 0 1 9).2.1 ⟨"default", [1, 2]⟩
    (by decide) 2 (by decide) (by decide)

end TikvSnap

namespace TikvSnap

/-! ## Receiver: duplicate inbound streams

Modelled from the spec (§3, §4.4): the Receiver implementation is not
among the provided sources. -/

/-- Receiver-visible state of a target node: per-key lifecycle states and
the storage engine. -/
structure RecvNode where
  reg : List (SnapKey × SnapState)
  storage : List RangeData
deriving DecidableEq, Repr

def findState : List (SnapKey × SnapState) → SnapKey → Option SnapState
  | [], _ => none
  | (k', s) :: rest, k => if k' = k then some s else findState rest k

/-- Is this key already past `Receiving`? -/
def pastReceiving : SnapState → Bool
  | .Received => true
  | .Applying => true
  | .Applied => true
  | _ => false

/-- Modelled from the spec: duplicate detection for an inbound stream —
the exact key is already past `Receiving`, or an `Applied` snapshot of the
same region exists at a newer index. -/
def isDuplicate (st : RecvNode) (k : SnapKey) : Bool :=
  (match findState st.reg k with
   | some s => pastReceiving s
   | none => false) ||
  st.reg.any (fun p =>
    decide (p.1.region_id = k.region_id) && decide (p.2 = SnapState.Applied) &&
      decide (k.index < p.1.index))

/-- Outcome of one inbound stream at admission time. -/
inductive InboundResult where
  | DupNoOp
  | Admitted
deriving DecidableEq, Repr

/-- Modelled from the spec: a duplicate inbound stream is drained and
discarded — accepted as a no-op, not an error, with no state change;
otherwise the key enters `Receiving`. -/
def handleInbound (st : RecvNode) (k : SnapKey) : InboundResult × RecvNode :=
  if isDuplicate st k then (.DupNoOp, st)
  else (.Admitted, { st with reg := (k, SnapState.Receiving) :: st.reg })

/-- C5: receiving a duplicate inbound stream for a SnapKey that is already
`Received`, `Applying`, or `Applied` — or for the same region at an older
index than an already-`Applied` snapshot — is an idempotent no-op: no
error, and the storage state is not mutated. -/
theorem c5_duplicate_inbound_noop (st : RecvNode) (k : SnapKey)
    (h : (∃ s, findState st.reg k = some s ∧ pastReceiving s = true) ∨
         (∃ k', (k', SnapState.Applied) ∈ st.reg ∧ k'.region_id = k.region_id ∧
           k.index < k'.index)) :
    handleInbound st k = (.DupNoOp, st) ∧
    (handleInbound st k).2.storage = st.storage := by
  have hdup : isDuplicate st k = true := by
    rcases h with ⟨s, hfind, hpast⟩ | ⟨k', hmem, hreg, hidx⟩
    · rw [isDuplicate, hfind]
      simp [hpast]
    · rw [isDuplicate, Bool.or_eq_true]
      refine Or.inr (List.any_eq_true.mpr ⟨(k', SnapState.Applied), hmem, ?_⟩)
      simp [hreg, hidx]
  have hres : handleInbound st k = (.DupNoOp, st) := by
    rw [handleInbound, if_pos hdup]
  exact ⟨hres, by rw [hres]⟩

/-- Witness for C5: region 2 already has an `Applied` snapshot at index 9;
an inbound stream for the same region at index 7 is a no-op. -/
theorem c5_duplicate_inbound_noop_witness :
    handleInbound ⟨[(⟨2, 6, 9⟩, SnapState.Applied)], [⟨"default", [1]⟩]⟩ ⟨2, 6, 7⟩ =
      (InboundResult.DupNoOp, ⟨[(⟨2, 6, 9⟩, SnapState.Applied)], [⟨"default", [1]⟩]⟩) :=
  (c5_duplicate_inbound_noop ⟨[(⟨2, 6, 9⟩, SnapState.Applied)], [⟨"default", [1]⟩]⟩
    ⟨2, 6, 7⟩ (Or.inr ⟨⟨2, 6, 9⟩, by decide, by decide, by decide⟩)).1

end TikvSnap

namespace TikvSnap

/-! ## Receiver admission control: bounded semaphore with parking

Modelled from the spec (§4.2 `try_admit_receive`, §4.4, §5): when
`concurrent_recv_snap_limit` is exhausted, an inbound stream is parked —
suspended, not rejected — and resumes automatically as capacity frees. -/

/-- The bounded receive-admission semaphore: streams currently in
`Receiving`, the FIFO of parked streams, and the completed ones. -/
structure RecvSem where
  limit : Nat
  active : List Nat
  parked : List Nat
  done : List Nat
deriving DecidableEq, Repr

/-- `try_admit_receive`: admit when below the cap, otherwise park. -/
def tryAdmit (s : RecvSem) (r : Nat) : RecvSem :=
  if s.active.length < s.limit then { s with active := s.active ++ [r] }
  else { s with parked := s.parked ++ [r] }

/-- A stream closing (success or failure alike): release the slot back to
the semaphore, then the head of the parked queue resumes automatically. -/
def finishOne (s : RecvSem) (r : Nat) : RecvSem :=
  if r ∈ s.active then
    let s1 : RecvSem := { s with active := s.active.erase r, done := s.done ++ [r] }
    match s1.parked with
    | [] => s1
    | p :: ps => { s1 with active := s1.active ++ [p], parked := ps }
  else s

/-- External events seen by the admission semaphore. -/
inductive SemEvent where
  | arrive (r : Nat)
  | finish (r : Nat)
deriving DecidableEq, Repr

def semStep (s : RecvSem) : SemEvent → RecvSem
  | .arrive r => tryAdmit s r
  | .finish r => finishOne s r

def semInit (limit : Nat) : RecvSem := ⟨limit, [], [], []⟩

def semRun (s : RecvSem) (evs : List SemEvent) : RecvSem := evs.foldl semStep s

/-- Keep finishing the stream at the head of the receiving set (capacity
freeing over time). -/
def drain (s : RecvSem) : Nat → RecvSem
  | 0 => s
  | n + 1 =>
    match s.active with
    | [] => s
    | r :: _ => drain (finishOne s r) n

/-- The semaphore invariant: the cap holds, and streams are parked only
while the cap is saturated. -/
def semInv (s : RecvSem) : Prop :=
  s.active.length ≤ s.limit ∧ (s.parked ≠ [] → s.active.length = s.limit)

theorem semInv_tryAdmit {s : RecvSem} (hs : semInv s) (r : Nat) :
    semInv (tryAdmit s r) := by
  rcases hs with ⟨h1, h2⟩
  rw [tryAdmit]
  by_cases hlt : s.active.length < s.limit
  · rw [if_pos hlt]
    constructor
    · show (s.active ++ [r]).length ≤ s.limit
      rw [List.length_append]
      simpa using hlt
    · intro hp
      exact absurd (h2 hp) (Nat.ne_of_lt hlt)
  · rw [if_neg hlt]
    constructor
    · show s.active.length ≤ s.limit
      exact h1
    · intro _
      show s.active.length = s.limit
      omega

theorem finishOne_limit (s : RecvSem) (r : Nat) : (finishOne s r).limit = s.limit := by
  rw [finishOne]
  by_cases hr : r ∈ s.active
  · rw [if_pos hr]
    rcases hp : s.parked with _ | ⟨p, ps⟩ <;> simp
  · rw [if_neg hr]

theorem tryAdmit_limit (s : RecvSem) (r : Nat) : (tryAdmit s r).limit = s.limit := by
  rw [tryAdmit]
  by_cases hlt : s.active.length < s.limit
  · rw [if_pos hlt]
  · rw [if_neg hlt]

theorem semInv_finishOne {s : RecvSem} (hs : semInv s) (r : Nat) :
    semInv (finishOne s r) := by
  rcases hs with ⟨h1, h2⟩
  rw [finishOne]
  by_cases hr : r ∈ s.active
  · rw [if_pos hr]
    have hpos : 0 < s.active.length := List.length_pos_of_mem hr
    have herase : (s.active.erase r).length = s.active.length - 1 :=
      List.length_erase_of_mem hr
    rcases hp : s.parked with _ | ⟨p, ps⟩
    · refine ⟨by simp [herase]; omega, ?_⟩
      intro hne
      simp at hne
    · have hfull : s.active.length = s.limit := h2 (by rw [hp]; simp)
      constructor
      · simp [herase]; omega
      · intro _
        simp [herase]; omega
  · rw [if_neg hr]
    exact ⟨h1, h2⟩

theorem semInv_run (limit : Nat) (evs : List SemEvent) :
    semInv (semRun (semInit limit) evs) ∧ (semRun (semInit limit) evs).limit = limit := by
  suffices h : ∀ s : RecvSem, semInv s → semInv (semRun s evs) ∧ (semRun s evs).limit = s.limit by
    refine h (semInit limit) ⟨?_, ?_⟩
    · show (0 : Nat) ≤ limit
      exact Nat.zero_le limit
    · intro hp
      exact absurd rfl hp
  induction evs with
  | nil => exact fun s hs => ⟨hs, rfl⟩
  | cons ev rest ih =>
    intro s hs
    cases ev with
    | arrive r =>
      have h2 := ih (tryAdmit s r) (semInv_tryAdmit hs r)
      refine ⟨h2.1, ?_⟩
      show (semRun (tryAdmit s r) rest).limit = s.limit
      rw [h2.2, tryAdmit_limit]
    | finish r =>
      have h2 := ih (finishOne s r) (semInv_finishOne hs r)
      refine ⟨h2.1, ?_⟩
      show (semRun (finishOne s r) rest).limit = s.limit
      rw [h2.2, finishOne_limit]

theorem finishOne_measure {s : RecvSem} {r : Nat} (hr : r ∈ s.active) :
    (finishOne s r).active.length + (finishOne s r).parked.length + 1 =
      s.active.length + s.parked.length := by
  rw [finishOne, if_pos hr]
  have hpos : 0 < s.active.length := List.length_pos_of_mem hr
  have herase : (s.active.erase r).length = s.active.length - 1 :=
    List.length_erase_of_mem hr
  rcases hp : s.parked with _ | ⟨p, ps⟩ <;> simp [herase] <;> omega

theorem finishOne_mem_preserved {s : RecvSem} {r x : Nat}
    (hx : x ∈ s.active ++ s.parked ++ s.done) :
    x ∈ (finishOne s r).active ++ (finishOne s r).parked ++ (finishOne s r).done := by
  rw [finishOne]
  by_cases hr : r ∈ s.active
  · rw [if_pos hr]
    simp only [List.mem_append] at hx
    rcases hp : s.parked with _ | ⟨p, ps⟩
    · simp only [List.mem_append]
      rcases hx with (hx | hx) | hx
      · by_cases hxr : x = r
        · exact Or.inr (by simp [hxr])
        · exact Or.inl (Or.inl (List.mem_erase_of_ne hxr |>.mpr hx))
      · rw [hp] at hx; cases hx
      · exact Or.inr (by simp [hx])
    · simp only [List.mem_append]
      rcases hx with (hx | hx) | hx
      · by_cases hxr : x = r
        · exact Or.inr (by simp [hxr])
        · exact Or.inl (Or.inl (by simp [List.mem_erase_of_ne hxr, hx]))
      · rw [hp] at hx
        rcases List.mem_cons.mp hx with hx | hx
        · exact Or.inl (Or.inl (by simp [hx]))
        · exact Or.inl (Or.inr (by simp [hx]))
      · exact Or.inr (by simp [hx])
  · rw [if_neg hr]
    exact hx

theorem drain_succ_nil {s : RecvSem} {n : Nat} (ha : s.active = []) :
    drain s (n + 1) = s := by
  rw [drain, ha]

theorem drain_succ_cons {s : RecvSem} {n r : Nat} {rest : List Nat}
    (ha : s.active = r :: rest) : drain s (n + 1) = drain (finishOne s r) n := by
  rw [drain, ha]

theorem finishOne_done_mono {s : RecvSem} {r x : Nat} (hx : x ∈ s.done) :
    x ∈ (finishOne s r).done := by
  rw [finishOne]
  by_cases hr : r ∈ s.active
  · rw [if_pos hr]
    rcases hp : s.parked with _ | ⟨p, ps⟩ <;> simp [hx]
  · rw [if_neg hr]
    exact hx

theorem drain_done_mono (n : Nat) (s : RecvSem) {x : Nat} (hx : x ∈ s.done) :
    x ∈ (drain s n).done := by
  induction n generalizing s with
  | zero => exact hx
  | succ n ih =>
    rcases ha : s.active with _ | ⟨r, rest⟩
    · rw [drain_succ_nil ha]
      exact hx
    · rw [drain_succ_cons ha]
      exact ih (finishOne s r) (finishOne_done_mono hx)

theorem drain_completes (n : Nat) (s : RecvSem) (hinv : semInv s) (hpos : 0 < s.limit)
    (hn : s.active.length + s.parked.length ≤ n) :
    (drain s n).active = [] ∧ (drain s n).parked = [] ∧
      ∀ x ∈ s.active ++ s.parked, x ∈ (drain s n).done := by
  induction n generalizing s with
  | zero =>
    have h1 : s.active = [] := List.eq_nil_of_length_eq_zero (by omega)
    have h2 : s.parked = [] := List.eq_nil_of_length_eq_zero (by omega)
    exact ⟨h1, h2, fun x hx => by rw [h1, h2] at hx; cases hx⟩
  | succ n ih =>
    rcases ha : s.active with _ | ⟨r, rest⟩
    · have hp : s.parked = [] := by
        by_contra hne
        have hlen := hinv.2 hne
        rw [ha] at hlen
        simp at hlen
        omega
      rw [drain_succ_nil ha]
      exact ⟨ha, hp, fun x hx => by simp [ha, hp] at hx⟩
    · have hr : r ∈ s.active := by rw [ha]; exact List.mem_cons_self r rest
      have hinv' := semInv_finishOne hinv r
      have hpos' : 0 < (finishOne s r).limit := by rw [finishOne_limit]; exact hpos
      have hn' : (finishOne s r).active.length + (finishOne s r).parked.length ≤ n := by
        have hm := finishOne_measure hr
        omega
      rw [drain_succ_cons ha]
      obtain ⟨ha', hp', hmem'⟩ := ih (finishOne s r) hinv' hpos' hn'
      refine ⟨ha', hp', ?_⟩
      intro x hx
      have hx2 : x ∈ s.active ++ s.parked := by rw [ha]; exact hx
      have hx' : x ∈ (finishOne s r).active ++ (finishOne s r).parked ++ (finishOne s r).done := by
        refine finishOne_mem_preserved ?_
        simp only [List.mem_append] at hx2 ⊢
        exact Or.inl hx2
      simp only [List.mem_append] at hx'
      rcases hx' with (hx' | hx') | hx'
      · exact hmem' x (by simp [hx'])
      · exact hmem' x (by simp [hx'])
      · exact drain_done_mono n (finishOne s r) hx'

/-- C6: with `concurrent_recv_snap_limit = N`, at most `N` receive
streams are in `Receiving` simultaneously in every reachable state; a
stream refused admission at a full semaphore is parked (appended to the
wait queue, not rejected and not admitted); and when the limit is positive
every active or parked stream completes once capacity frees. -/
theorem c6_admission_bound_parking_and_completion (limit : Nat) (evs : List SemEvent)
    (r : Nat) :
    ((semRun (semInit limit) evs).active.length ≤ limit) ∧
    ((semRun (semInit limit) evs).active.length = limit →
      (tryAdmit (semRun (semInit limit) evs) r).parked =
        (semRun (semInit limit) evs).parked ++ [r] ∧
      (tryAdmit (semRun (semInit limit) evs) r).active =
        (semRun (semInit limit) evs).active) ∧
    (0 < limit → ∀ x ∈ (semRun (semInit limit) evs).active ++
        (semRun (semInit limit) evs).parked,
      x ∈ (drain (semRun (semInit limit) evs)
        ((semRun (semInit limit) evs).active.length +
          (semRun (semInit limit) evs).parked.length)).done) := by
  obtain ⟨hinv, hlim⟩ := semInv_run limit evs
  refine ⟨?_, ?_, ?_⟩
  · have h1 := hinv.1
    rw [hlim] at h1
    exact h1
  · intro hfull
    have hnlt : ¬ (semRun (semInit limit) evs).active.length <
        (semRun (semInit limit) evs).limit := by omega
    rw [tryAdmit, if_neg hnlt]
    exact ⟨rfl, rfl⟩
  · intro hposlim x hx
    have hpos' : 0 < (semRun (semInit limit) evs).limit := by
      rw [hlim]
      exact hposlim
    exact (drain_completes _ _ hinv hpos' (Nat.le_refl _)).2.2 x hx

/-- Witness for C6: with limit 1, streams 10 and 20 arrive; 20 is parked,
and after draining both complete. -/
theorem c6_admission_bound_parking_and_completion_witness :
    20 ∈ (drain (semRun (semInit 1) [SemEvent.arrive 10, SemEvent.arrive 20]) 2).done :=
  (c6_admission_bound_parking_and_completion 1 [SemEvent.arrive 10, SemEvent.arrive 20]
    99).2.2 (by decide) 20 (by decide)

end TikvSnap

namespace TikvSnap

/-! ## Sender: deadline and bounded retry

Modelled from the spec (§4.3, §5): the Sender implementation is not among
the provided sources. -/

/-- One attempted transfer as the environment resolves it: how long the
stream took and whether the transport survived. -/
structure Attempt where
  duration : Nat
  transportOk : Bool
deriving DecidableEq, Repr

/-- Outcome of a send. -/
inductive SendResult where
  | Delivered
  | SendTimeout
  | TransportFailed
deriving DecidableEq, Repr

/-- Modelled from the spec: one attempt under the hard deadline — exceeding
it is a `SendTimeout`; the partial stream is aborted, so nothing is
delivered. -/
def sendAttempt (deadline : Nat) (a : Attempt) : SendResult :=
  if deadline < a.duration then .SendTimeout
  else if a.transportOk then .Delivered else .TransportFailed

/-- Modelled from the spec: the bounded retry loop — a transport-level
failure retries the whole attempt while budget remains, then reports
failure upward; `env k` is the outcome the network would give attempt `k`.
Returns the result and the number of attempts used. -/
def sendLoop (deadline : Nat) (env : Nat → Attempt) : Nat → Nat → SendResult × Nat
  | k, 0 => (.TransportFailed, k)
  | k, n + 1 =>
    match sendAttempt deadline (env k) with
    | .Delivered => (.Delivered, k + 1)
    | .SendTimeout => (.SendTimeout, k + 1)
    | .TransportFailed => sendLoop deadline env (k + 1) n

/-- `send(key, target_node, deadline)` with a bounded attempt budget. -/
def send (deadline maxAttempts : Nat) (env : Nat → Attempt) : SendResult × Nat :=
  sendLoop deadline env 0 maxAttempts

theorem sendLoop_attempts_le (deadline : Nat) (env : Nat → Attempt) (n k : Nat) :
    (sendLoop deadline env k n).2 ≤ k + n := by
  induction n generalizing k with
  | zero => exact Nat.le_refl k
  | succ n ih =>
    rw [sendLoop]
    rcases sendAttempt deadline (env k) with _ | _ | _
    · show k + 1 ≤ k + (n + 1); omega
    · show k + 1 ≤ k + (n + 1); omega
    · show (sendLoop deadline env (k + 1) n).2 ≤ k + (n + 1)
      have := ih (k + 1)
      omega

theorem sendLoop_all_fail (deadline : Nat) (env : Nat → Attempt) (n k : Nat)
    (h : ∀ i, k ≤ i → i < k + n →
      (env i).duration ≤ deadline ∧ (env i).transportOk = false) :
    (sendLoop deadline env k n).1 = .TransportFailed := by
  induction n generalizing k with
  | zero => rfl
  | succ n ih =>
    have hk := h k (Nat.le_refl k) (by omega)
    have hatt : sendAttempt deadline (env k) = .TransportFailed := by
      rw [sendAttempt, if_neg (by omega), if_neg (by simp [hk.2])]
    rw [sendLoop, hatt]
    exact ih (k + 1) (fun i h1 h2 => h i (by omega) (by omega))

theorem sendLoop_delivered_at (deadline : Nat) (env : Nat → Attempt) (n k j : Nat)
    (hjk : k ≤ j) (hjn : j < k + n)
    (hfail : ∀ i, k ≤ i → i < j →
      (env i).duration ≤ deadline ∧ (env i).transportOk = false)
    (hdur : (env j).duration ≤ deadline) (hok : (env j).transportOk = true) :
    (sendLoop deadline env k n).1 = .Delivered := by
  induction n generalizing k with
  | zero => omega
  | succ n ih =>
    by_cases hj : j = k
    · subst hj
      have hatt : sendAttempt deadline (env j) = .Delivered := by
        rw [sendAttempt, if_neg (by omega), if_pos (by simp [hok])]
      rw [sendLoop, hatt]
    · have hk := hfail k (Nat.le_refl k) (by omega)
      have hatt : sendAttempt deadline (env k) = .TransportFailed := by
        rw [sendAttempt, if_neg (by omega), if_neg (by simp [hk.2])]
      rw [sendLoop, hatt]
      exact ih (k + 1) (by omega) (by omega)
        (fun i h1 h2 => hfail i (by omega) h2)

/-- C7: an attempt exceeding the deadline fails with `SendTimeout`; the
whole send uses at most the bounded attempt budget; if every attempt in
the budget hits a transport failure the Sender reports failure upward;
and a send whose transport recovers on a retry within the budget delivers
the snapshot. -/
theorem c7_send_timeout_and_bounded_retry (deadline maxAttempts : Nat)
    (env : Nat → Attempt) :
    (∀ k, deadline < (env k).duration →
      sendAttempt deadline (env k) = .SendTimeout) ∧
    ((send deadline maxAttempts env).2 ≤ maxAttempts) ∧
    ((∀ i, i < maxAttempts →
        (env i).duration ≤ deadline ∧ (env i).transportOk = false) →
      (send deadline maxAttempts env).1 = .TransportFailed) ∧
    (∀ j, j < maxAttempts →
      (∀ i, i < j → (env i).duration ≤ deadline ∧ (env i).transportOk = false) →
      (env j).duration ≤ deadline → (env j).transportOk = true →
      (send deadline maxAttempts env).1 = .Delivered) := by
  refine ⟨?_, ?_, ?_, ?_⟩
  · intro k hk
    rw [sendAttempt, if_pos hk]
  · have := sendLoop_attempts_le deadline env maxAttempts 0
    simpa [send] using this
  · intro h
    exact sendLoop_all_fail deadline env maxAttempts 0
      (fun i h1 h2 => h i (by omega))
  · intro j hj hfail hdur hok
    exact sendLoop_delivered_at deadline env maxAttempts 0 j (Nat.zero_le j)
      (by omega) (fun i h1 h2 => hfail i h2) hdur hok

/-- Witness for C7: deadline 10, budget 3, transport failing on attempt 0
and healthy from attempt 1 on — the send delivers on the retry. -/
theorem c7_send_timeout_and_bounded_retry_witness :
    (send 10 3 (fun k => if k = 0 then ⟨5, false⟩ else ⟨5, true⟩)).1 =
      SendResult.Delivered :=
  (c7_send_timeout_and_bounded_retry 10 3
    (fun k => if k = 0 then ⟨5, false⟩ else ⟨5, true⟩)).2.2.2 1 (by decide)
    (by decide) (by decide) (by decide)

end TikvSnap

namespace TikvSnap

/-! ## Receiver: admission slot released on stream close

Modelled from the spec (§4.4): the Receiver always releases admission back
to the semaphore on stream close, success or failure; `stats()` exposes
the `receiving_count` gauge checked by `test_sending_fail_with_net_error`
and `test_snapshot_send_failed`. -/

/-- Receive-manager state: the `receiving_count` gauge plus the
successfully received keys. -/
structure RecvMgr where
  receivingCount : Nat
  received : List SnapKey
deriving DecidableEq, Repr

/-- `stats().receiving_count`. -/
def RecvMgr.statsReceivingCount (m : RecvMgr) : Nat := m.receivingCount

/-- How one inbound stream ends. -/
inductive StreamOutcome where
  | success (k : SnapKey)
  | netError
deriving DecidableEq, Repr

/-- Modelled from the spec: the whole life of one inbound stream —
admission increments the gauge; on close the slot is always released,
whether the stream succeeded or died on a network error. -/
def receiveStream (m : RecvMgr) (o : StreamOutcome) : RecvMgr :=
  let admitted : RecvMgr := { m with receivingCount := m.receivingCount + 1 }
  let processed : RecvMgr :=
    match o with
    | .success k => { admitted with received := admitted.received ++ [k] }
    | .netError => admitted
  { processed with receivingCount := processed.receivingCount - 1 }

/-- A node handling a sequence of inbound streams to completion. -/
def receiveAll (m : RecvMgr) (outcomes : List StreamOutcome) : RecvMgr :=
  outcomes.foldl receiveStream m

theorem receiveStream_count (m : RecvMgr) (o : StreamOutcome) :
    (receiveStream m o).receivingCount = m.receivingCount := by
  rcases o with k | _ <;> simp [receiveStream]

/-- C8: the Receiver always releases its admission slot when the stream
closes, on success and on failure alike — each stream leaves the
`receiving_count` gauge unchanged, and a node that started idle reports
`receiving_count = 0` after any mix of successful and failed streams. -/
theorem c8_receiving_count_zero_after_streams (outcomes : List StreamOutcome)
    (m : RecvMgr) (o : StreamOutcome) :
    (receiveStream m o).statsReceivingCount = m.statsReceivingCount ∧
    (receiveAll ⟨0, []⟩ outcomes).statsReceivingCount = 0 := by
  refine ⟨receiveStream_count m o, ?_⟩
  suffices h : ∀ m0 : RecvMgr, (receiveAll m0 outcomes).receivingCount = m0.receivingCount by
    exact h ⟨0, []⟩
  induction outcomes with
  | nil => exact fun m0 => rfl
  | cons o0 rest ih =>
    intro m0
    show (receiveAll (receiveStream m0 o0) rest).receivingCount = m0.receivingCount
    rw [ih (receiveStream m0 o0), receiveStream_count]

end TikvSnap

namespace TikvSnap

/-! ## On-disk artifact naming and the scans that parse it

Embedded from source: `tests/failpoints/cases/test_snap.rs` both creates
snapshot artifact files (`test_snapshot_gc_after_failed` writes
`format!("gen_{}_{}_{}{}", region, term, idx, suffix)`) and parses names
(`assert_snapshot` splits on `_`, skips the first field and reads the
region id from the second; `test_cancel_snapshot_generating` reads the
snapshot index of a `.meta` file from field 3 of the stem). -/

/-- Rust's `str::split('_')`: split at every underscore, preserving empty
pieces, over the character sequence. -/
def splitCh : List Char → List (List Char)
  | [] => [[]]
  | c :: cs =>
    if c = '_' then [] :: splitCh cs
    else
      match splitCh cs with
      | [] => [[c]]
      | h :: t => (c :: h) :: t

/-- `name.split('_')` at the string level. -/
def splitUnderscore (s : String) : List String :=
  (splitCh s.data).map (fun cs => String.mk cs)

/-- The file matcher of `assert_snapshot`: skip the first `_`-field of the
file name and compare the second with the formatted region id. -/
def assertSnapshotMatch (name : String) (region_id : Nat) : Bool :=
  match splitUnderscore name with
  | _ :: second :: _ => decide (second = toString region_id)
  | _ => false

/-- The characters of the `.meta` extension. -/
def metaSuffix : List Char := ['.', 'm', 'e', 't', 'a']

/-- Rust's `parse::<u64>()` on a digit string. -/
def parseNat? (s : String) : Option Nat :=
  if s.data ≠ [] ∧ s.data.all (fun c => c.isDigit) then
    some (s.data.foldl (fun n c => n * 10 + (c.toNat - Char.toNat '0')) 0)
  else none

/-- The snapshot-index extraction of `test_cancel_snapshot_generating`:
for a file name ending in `.meta`, drop the extension, split the stem on
`_`, and parse field 3 as the index. -/
def metaSnapIndex (file_name : String) : Option Nat :=
  if file_name.data.reverse.take 5 = metaSuffix.reverse then
    let stem : String := String.mk (file_name.data.take (file_name.data.length - 5))
    match (splitUnderscore stem)[3]? with
    | some p => parseNat? p
    | none => none
  else none

/-- Artifact names as created by `test_snapshot_gc_after_failed`:
`format!("gen_{}_{}_{}{}", region, term, idx, suffix)` with suffix
`.meta` or `_default.sst`. -/
def gcTestFileName (region term idx : Nat) (suffix : String) : String :=
  "gen_" ++ toString region ++ "_" ++ toString term ++ "_" ++ toString idx ++ suffix

/-- Modelled from the spec: the claimed naming
`<region_id>_<term>_<index>.meta` (no leading tag field). -/
def specClaimMetaName (region term idx : Nat) : String :=
  toString region ++ "_" ++ toString term ++ "_" ++ toString idx ++ ".meta"

/-- C9 counterexample: for the snapshot key `(region 2, term 6, index 1)`
the artifact actually written is `gen_2_6_1.meta`, not the claimed
`2_6_1.meta`; the source's index extraction finds no index field in the
claimed name (and the region matcher rejects it), while both parse the
actual name correctly — so the claimed convention is not the one the
scans group by. -/
theorem c9_counterexample :
    gcTestFileName 2 6 1 ".meta" ≠ specClaimMetaName 2 6 1 ∧
    metaSnapIndex (specClaimMetaName 2 6 1) = none ∧
    metaSnapIndex (gcTestFileName 2 6 1 ".meta") = some 1 ∧
    assertSnapshotMatch (specClaimMetaName 2 6 1) 2 = false ∧
    assertSnapshotMatch (gcTestFileName 2 6 1 ".meta") 2 = true := by
  refine ⟨by decide, by decide, by decide, by decide, by decide⟩

theorem splitCh_no_sep (cs : List Char) (h : ∀ c ∈ cs, c ≠ '_') :
    splitCh cs = [cs] := by
  induction cs with
  | nil => rfl
  | cons c cs ih =>
    have hc : c ≠ '_' := h c (List.mem_cons_self _ _)
    rw [splitCh, if_neg hc, ih (fun x hx => h x (List.mem_cons_of_mem _ hx))]

theorem splitCh_append_sep (xs ys : List Char) (h : ∀ c ∈ xs, c ≠ '_') :
    splitCh (xs ++ '_' :: ys) = xs :: splitCh ys := by
  induction xs with
  | nil => simp [splitCh]
  | cons x xs ih =>
    have hx : x ≠ '_' := h x (List.mem_cons_self _ _)
    rw [List.cons_append, splitCh, if_neg hx,
      ih (fun c hc => h c (List.mem_cons_of_mem _ hc))]

theorem mk_data_eq (s : String) : String.mk s.data = s := by
  cases s
  rfl

/-- Does a string avoid the `_` separator? -/
def noUnderscore (s : String) : Bool := s.data.all (fun c => decide (c ≠ '_'))

theorem noUnderscore_spec {s : String} (h : noUnderscore s = true) :
    ∀ c ∈ s.data, c ≠ '_' := by
  intro c hc
  have := List.all_eq_true.mp h c hc
  simpa using this

end TikvSnap

namespace TikvSnap

/-- C9 amended: every on-disk snapshot artifact is named
`<tag>_<region_id>_<term>_<index>.meta` plus one data file per range
named `<tag>_<region_id>_<term>_<index>_<range_name>.sst` (the leading
tag marks the artifact's origin, e.g. `gen`), and the scans group files
into SnapKeys by parsing exactly this convention: the region id is the
second `_`-field and a `.meta` file's snapshot index is the fourth. -/
theorem c9_amended_naming (tag r t i cf : String) (region idx : Nat)
    (htag : noUnderscore tag = true) (hr : noUnderscore r = true)
    (ht : noUnderscore t = true) (hi : noUnderscore i = true)
    (hcf : noUnderscore cf = true)
    (hreg : toString region = r) (hidx : parseNat? i = some idx) :
    splitUnderscore (tag ++ "_" ++ r ++ "_" ++ t ++ "_" ++ i) = [tag, r, t, i] ∧
    metaSnapIndex (tag ++ "_" ++ r ++ "_" ++ t ++ "_" ++ i ++ ".meta") = some idx ∧
    assertSnapshotMatch (tag ++ "_" ++ r ++ "_" ++ t ++ "_" ++ i ++ ".meta")
      region = true ∧
    assertSnapshotMatch (tag ++ "_" ++ r ++ "_" ++ t ++ "_" ++ i ++ "_" ++ cf ++ ".sst")
      region = true := by
  subst hreg
  have husep : ("_" : String).data = ['_'] := rfl
  have hstem : (tag ++ "_" ++ toString region ++ "_" ++ t ++ "_" ++ i).data =
      tag.data ++ '_' :: ((toString region).data ++ '_' :: (t.data ++ '_' :: i.data)) := by
    simp [String.data_append, husep]
  have hsplitstem :
      splitCh (tag.data ++ '_' :: ((toString region).data ++ '_' :: (t.data ++ '_' :: i.data))) =
        [tag.data, (toString region).data, t.data, i.data] := by
    rw [splitCh_append_sep _ _ (noUnderscore_spec htag),
      splitCh_append_sep _ _ (noUnderscore_spec hr),
      splitCh_append_sep _ _ (noUnderscore_spec ht),
      splitCh_no_sep _ (noUnderscore_spec hi)]
  have hc1 : splitUnderscore (tag ++ "_" ++ toString region ++ "_" ++ t ++ "_" ++ i) =
      [tag, toString region, t, i] := by
    rw [splitUnderscore, hstem, hsplitstem]
    simp [mk_data_eq]
  have hfull : (tag ++ "_" ++ toString region ++ "_" ++ t ++ "_" ++ i ++ ".meta").data =
      (tag ++ "_" ++ toString region ++ "_" ++ t ++ "_" ++ i).data ++ metaSuffix := by
    rw [String.data_append]
    rfl
  have hc2 : metaSnapIndex (tag ++ "_" ++ toString region ++ "_" ++ t ++ "_" ++ i ++ ".meta") =
      some idx := by
    have hcond : ((tag ++ "_" ++ toString region ++ "_" ++ t ++ "_" ++ i ++
        ".meta").data).reverse.take 5 = metaSuffix.reverse := by
      rw [hfull, List.reverse_append]
      exact List.take_left' rfl
    have hmlen : metaSuffix.length = 5 := rfl
    have hlen : (tag ++ "_" ++ toString region ++ "_" ++ t ++ "_" ++ i ++
        ".meta").data.length - 5 =
        (tag ++ "_" ++ toString region ++ "_" ++ t ++ "_" ++ i).data.length := by
      rw [hfull, List.length_append, hmlen]
      omega
    have htake : (tag ++ "_" ++ toString region ++ "_" ++ t ++ "_" ++ i ++
        ".meta").data.take ((tag ++ "_" ++ toString region ++ "_" ++ t ++ "_" ++ i ++
          ".meta").data.length - 5) =
        (tag ++ "_" ++ toString region ++ "_" ++ t ++ "_" ++ i).data := by
      rw [hlen, hfull, List.take_left]
    rw [metaSnapIndex, if_pos hcond, htake, mk_data_eq]
    simp [hc1, hidx]
  have hlastmeta : ∀ c ∈ i.data ++ metaSuffix, c ≠ '_' := by
    intro c hc
    rcases List.mem_append.mp hc with h1 | h1
    · exact noUnderscore_spec hi c h1
    · simp [metaSuffix] at h1
      rcases h1 with rfl | rfl | rfl | rfl | rfl <;> decide
  have hfulldata : (tag ++ "_" ++ toString region ++ "_" ++ t ++ "_" ++ i ++ ".meta").data =
      tag.data ++ '_' :: ((toString region).data ++ '_' ::
        (t.data ++ '_' :: (i.data ++ metaSuffix))) := by
    rw [hfull, hstem]
    simp [List.append_assoc]
  have hc3 : assertSnapshotMatch (tag ++ "_" ++ toString region ++ "_" ++ t ++ "_" ++ i ++
      ".meta") region = true := by
    rw [assertSnapshotMatch, splitUnderscore, hfulldata,
      splitCh_append_sep _ _ (noUnderscore_spec htag),
      splitCh_append_sep _ _ (noUnderscore_spec hr),
      splitCh_append_sep _ _ (noUnderscore_spec ht),
      splitCh_no_sep _ hlastmeta]
    simp [mk_data_eq]
  have hsst : (".sst" : String).data = ['.', 's', 's', 't'] := rfl
  have hlastsst : ∀ c ∈ cf.data ++ ['.', 's', 's', 't'], c ≠ '_' := by
    intro c hc
    rcases List.mem_append.mp hc with h1 | h1
    · exact noUnderscore_spec hcf c h1
    · simp at h1
      rcases h1 with rfl | rfl | rfl | rfl <;> decide
  have hfullsst : (tag ++ "_" ++ toString region ++ "_" ++ t ++ "_" ++ i ++ "_" ++ cf ++
      ".sst").data =
      tag.data ++ '_' :: ((toString region).data ++ '_' ::
        (t.data ++ '_' :: (i.data ++ '_' :: (cf.data ++ ['.', 's', 's', 't'])))) := by
    simp [String.data_append, husep, hsst]
  have hc4 : assertSnapshotMatch (tag ++ "_" ++ toString region ++ "_" ++ t ++ "_" ++ i ++
      "_" ++ cf ++ ".sst") region = true := by
    rw [assertSnapshotMatch, splitUnderscore, hfullsst,
      splitCh_append_sep _ _ (noUnderscore_spec htag),
      splitCh_append_sep _ _ (noUnderscore_spec hr),
      splitCh_append_sep _ _ (noUnderscore_spec ht),
      splitCh_append_sep _ _ (noUnderscore_spec hi),
      splitCh_no_sep _ hlastsst]
    simp [mk_data_eq]
  exact ⟨hc1, hc2, hc3, hc4⟩

/-- Witness for the amended C9 at the GC test's own key: the file
`gen_2_6_1.meta` parses to snapshot index 1. -/
theorem c9_amended_naming_witness :
    metaSnapIndex ("gen" ++ "_" ++ "2" ++ "_" ++ "6" ++ "_" ++ "1" ++ ".meta") = some 1 :=
  (c9_amended_naming "gen" "2" "6" "1" "default" 2 1 (by decide) (by decide) (by decide)
    (by decide) (by decide) (by decide) (by decide)).2.1

end TikvSnap
